import Mathlib

/-!
# Verification of the kitcat staging/index subsystem

A shallow embedding of the index transaction engine (`internal/storage/index.go`)
and the staging walkers `AddFile` / `AddAll` (package `core`), together with
theorems about atomicity, format migration, the metadata fast path, the
reconciliation sweep, and the legacy hash-map adapter.

External collaborators (the JSON codec, path library, ignore rules, the
path-safety predicate, the content store, and the lock primitive) are
parameters of the embedding, exactly as the specification treats them.
The filesystem walk is represented by the list of entries the walk visits.
Machine integers (`int64` sizes and Unix timestamps) are modelled as `Int`;
the code only ever compares them for equality, so no overflow is involved.
-/

namespace Kitcat

/-- Error values produced by the embedded code paths.  `custom` stands for an
arbitrary error value coming from a caller-supplied callback. -/
inductive Err where
  | corruption
  | legacyDecode (path : String)
  | entryDecode (path : String)
  | mkdirFail
  | lockFail
  | notARepo
  | absFail
  | pathNotExist (path : String)
  | walkErr (path : String)
  | outsideRepo (path : String)
  | hashFail (path : String)
  | custom (msg : String)
deriving DecidableEq

/-- `storage.IndexEntry`: content hash plus cached metadata. -/
structure IndexEntry where
  hash : String
  modTime : Int
  size : Int
deriving DecidableEq

/-- The in-memory index: a finite map from canonical repo-relative path to
entry, embedded as an association list with unique keys (Go `map`). -/
abbrev Index := List (String × IndexEntry)

/-- Map lookup (`index[k]`). -/
def mlookup {α : Type} : List (String × α) → String → Option α
  | [], _ => none
  | (k, v) :: rest, p => if k = p then some v else mlookup rest p

/-- Map update (`index[k] = v`): replaces an existing binding, else appends. -/
def minsert {α : Type} : List (String × α) → String → α → List (String × α)
  | [], k, v => [(k, v)]
  | (k', v') :: rest, k, v =>
    if k' = k then (k, v) :: rest else (k', v') :: minsert rest k v

/-- Map deletion (`delete(index, k)`). -/
def merase {α : Type} : List (String × α) → String → List (String × α)
  | [], _ => []
  | (k', v') :: rest, k =>
    if k' = k then merase rest k else (k', v') :: merase rest k

/-- The key set of a map (`for k := range m`). -/
def mkeys {α : Type} (m : List (String × α)) : List String := m.map Prod.fst

/-- ASCII whitespace, as trimmed by `bytes.TrimSpace` on JSON values. -/
def isSpaceChar (c : Char) : Bool :=
  c = ' ' || c = '\t' || c = '\n' || c = '\r' || c = '\x0b' || c = '\x0c'

/-- `bytes.TrimSpace` on a raw JSON value. -/
def trimAsciiSpace (s : String) : String :=
  String.mk (((s.data.dropWhile isSpaceChar).reverse.dropWhile isSpaceChar).reverse)

/-- The external `encoding/json` codec: outer-document parsing into raw
per-key values, and the two shape-specific decoders used by the loader. -/
structure GoJson where
  parseOuter : String → Option (List (String × String))
  unString : String → Option String
  unEntry : String → Option IndexEntry

/-- The on-disk index file: `none` when absent, else its byte content. -/
abbrev Disk := Option String

/-- One iteration of the loader loop in `LoadIndexWithMeta`: trim the raw
value, sniff its first significant byte, and decode/migrate/skip. -/
def loadEntryStep (J : GoJson) (acc : Index) (kv : String × String) : Except Err Index :=
  match (trimAsciiSpace kv.2).data with
  | [] => .ok acc
  | c :: _ =>
    if c = '"' then
      match J.unString (trimAsciiSpace kv.2) with
      | none => .error (.legacyDecode kv.1)
      | some hash => .ok (minsert acc kv.1 ⟨hash, 0, 0⟩)
    else if c = '\x7b' then
      match J.unEntry (trimAsciiSpace kv.2) with
      | none => .error (.entryDecode kv.1)
      | some entry => .ok (minsert acc kv.1 entry)
    else
      .ok acc

/-- `storage.LoadIndexWithMeta`: absent or empty file is an empty index; a
malformed outer document is corruption; each raw value is dispatched on its
first significant byte. -/
def LoadIndexWithMeta (J : GoJson) (d : Disk) : Except Err Index :=
  match d with
  | none => .ok []
  | some content =>
    if content = "" then .ok []
    else
      match J.parseOuter content with
      | none => .error .corruption
      | some rawMap => rawMap.foldlM (loadEntryStep J) []

/-- Byte-wise `≤` on characters, used for the deterministic key ordering of
`json.MarshalIndent` over a `map[string]...`. -/
def charListLe : List Char → List Char → Bool
  | [], _ => true
  | _ :: _, [] => false
  | a :: as, b :: bs =>
    if a.toNat < b.toNat then true
    else if b.toNat < a.toNat then false
    else charListLe as bs

/-- String `≤` by byte comparison. -/
def strLe (a b : String) : Bool := charListLe a.data b.data

/-- Ordered insertion used by the serializer's key sort. -/
def insertSorted (p : String × IndexEntry) : Index → Index
  | [] => [p]
  | q :: rest => if strLe p.1 q.1 then p :: q :: rest else q :: insertSorted p rest

/-- Sort index pairs by key, as `encoding/json` does when marshalling a map. -/
def sortByKey (m : Index) : Index := m.foldr insertSorted []

/-- Rendering of one `IndexEntry` with the short keys and `omitempty`
behaviour of the Go struct tags. -/
def renderEntry (e : IndexEntry) : String :=
  "\x7b\n    \"h\": \"" ++ e.hash ++ "\""
    ++ (if e.modTime = 0 then "" else ",\n    \"m\": " ++ toString e.modTime)
    ++ (if e.size = 0 then "" else ",\n    \"s\": " ++ toString e.size)
    ++ "\n  \x7d"

/-- Rendering of the sorted key/entry pairs. -/
def renderPairs : Index → String
  | [] => ""
  | [p] => "  \"" ++ p.1 ++ "\": " ++ renderEntry p.2
  | p :: q :: rest => "  \"" ++ p.1 ++ "\": " ++ renderEntry p.2 ++ ",\n" ++ renderPairs (q :: rest)

/-- `json.MarshalIndent(index, "", "  ")`: deterministic serialization with
stable (sorted) key ordering and stable indentation. -/
def MarshalIndent (m : Index) : String :=
  match sortByKey m with
  | [] => "\x7b\x7d"
  | q :: rest => "\x7b\n" ++ renderPairs (q :: rest) ++ "\n\x7d"

/-- `storage.SafeWriteFile`: the atomic overwrite primitive; the file's new
content is exactly the marshalled bytes. -/
def SafeWriteFile (data : String) : Disk := some data

/-- `storage.UpdateIndexWithMeta`: mkdir, lock, load, run the mutation, and
write back atomically only on success.  The two booleans model success of the
external mkdir and lock steps; the result pairs the returned error (if any)
with the on-disk index file after the call. -/
def UpdateIndexWithMeta (J : GoJson) (mkdirOk lockOk : Bool) (d : Disk)
    (fn : Index → Except Err Index) : Except Err Unit × Disk :=
  if mkdirOk = false then (.error .mkdirFail, d)
  else if lockOk = false then (.error .lockFail, d)
  else
    match LoadIndexWithMeta J d with
    | .error e => (.error e, d)
    | .ok index =>
      match fn index with
      | .error e => (.error e, d)
      | .ok index' => (.ok (), SafeWriteFile (MarshalIndent index'))

/-- The hash-only projection of the rich index (`proxy[path] = entry.Hash`). -/
def proxyOf (m : Index) : List (String × String) := m.map (fun p => (p.1, p.2.hash))

/-- One step of `UpdateIndex`'s update/addition reconciliation loop:
a new or changed hash gets a fresh entry with zeroed metadata. -/
def legacyUpd (acc : Index) (q : String × String) : Index :=
  match mlookup acc q.1 with
  | some existing => if existing.hash ≠ q.2 then minsert acc q.1 ⟨q.2, 0, 0⟩ else acc
  | none => minsert acc q.1 ⟨q.2, 0, 0⟩

/-- The callback wrapper inside `storage.UpdateIndex`: build the proxy map,
run the legacy callback, then reconcile deletions (collect-then-delete) and
updates/additions back into the rich index. -/
def legacyReconcile (fn : List (String × String) → Except Err (List (String × String)))
    (realIndex : Index) : Except Err Index :=
  match fn (proxyOf realIndex) with
  | .error e => .error e
  | .ok proxy =>
    let toDelete := (mkeys realIndex).filter (fun p => decide (mlookup proxy p = none))
    let realIndex1 := toDelete.foldl merase realIndex
    .ok (proxy.foldl legacyUpd realIndex1)

/-- `storage.UpdateIndex`: the legacy-adapter transaction. -/
def UpdateIndex (J : GoJson) (mkdirOk lockOk : Bool) (d : Disk)
    (fn : List (String × String) → Except Err (List (String × String))) :
    Except Err Unit × Disk :=
  UpdateIndexWithMeta J mkdirOk lockOk d (legacyReconcile fn)

/-- Modelled from the spec: the repository root marker, a fixed relative
directory name whose presence gates staging and whose subtree is pruned from
walks.  The storage layer pins the index at `.kitcat/index`. -/
def RepoDir : String := ".kitcat"

/-- `os.PathSeparator` on the modelled platform. -/
def pathSep : String := "/"

/-- Structural character-list prefix test. -/
def listPre : List Char → List Char → Bool
  | [], _ => true
  | _ :: _, [] => false
  | a :: as, b :: bs => a = b && listPre as bs

/-- `strings.HasPrefix s pre`, argument order (prefix, subject). -/
def strHasPre (pre s : String) : Bool := listPre pre.data s.data

/-- The fields of `os.FileInfo` consulted by the walkers. -/
structure FileInfo where
  size : Int
  modTime : Int
  isDir : Bool
deriving DecidableEq

/-- One entry visited by `filepath.Walk`: its absolute path, its metadata,
and whether the walk delivered an error for it. -/
structure WalkItem where
  fullPath : String
  info : FileInfo
  err : Bool
deriving DecidableEq

/-- The external `path/filepath` operations used by the walkers. -/
structure PathLib where
  rel : String → String → Option String
  clean : String → String

/-- The external environment of the staging walkers: filesystem queries, the
walk itself, path utilities, the safety and ignore predicates, the content
store, and success of the mkdir/lock steps of the transaction. -/
structure Env where
  repoDirExists : Bool
  statExists : String → Bool
  abs : String → Option String
  walkItems : String → List WalkItem
  paths : PathLib
  isSafePath : String → Bool
  shouldIgnore : String → List String → List (String × String) → Bool
  loadIgnorePatterns : Except Err (List String)
  hashAndStoreFile : String → Except Err String
  mkdirOk : Bool
  lockOk : Bool

/-- The in-walk state of `AddFile`'s callback.  `hashed` instruments the
calls made to the content store (`HashAndStoreFile`), so that "no hashing
occurred" is observable. -/
structure AddFileSt where
  index : Index
  hashed : List String
deriving DecidableEq

/-- The slow path of `AddFile`'s walk function: hash and store the content,
propagating failure, then record the new entry with current metadata. -/
def addFileSlow (env : Env) (st : AddFileSt) (it : WalkItem) (cleanPath : String) :
    Except Err AddFileSt :=
  match env.hashAndStoreFile it.fullPath with
  | .error _ => .error (.hashFail it.fullPath)
  | .ok hash =>
    .ok { index := minsert st.index cleanPath ⟨hash, it.info.modTime, it.info.size⟩,
          hashed := st.hashed ++ [cleanPath] }

/-- The walk function of `AddFile` (the closure passed to `filepath.Walk`):
propagate walk errors, relativize, skip the root and the `.kitcat` subtree,
skip directories, apply safety and ignore filters, take the metadata fast
path when size and modtime match, else the slow path. -/
def addFileVisit (env : Env) (pats : List String) (proxy : List (String × String))
    (absRepoRoot : String) (st : AddFileSt) (it : WalkItem) : Except Err AddFileSt :=
  if it.err then .error (.walkErr it.fullPath)
  else
    match env.paths.rel absRepoRoot it.fullPath with
    | none => .error (.outsideRepo it.fullPath)
    | some relPath =>
      let cleanPath := env.paths.clean relPath
      if cleanPath = "." then .ok st
      else if strHasPre (RepoDir ++ pathSep) cleanPath ∨ cleanPath = RepoDir then .ok st
      else if it.info.isDir then .ok st
      else if env.isSafePath cleanPath = false then .ok st
      else if env.shouldIgnore cleanPath pats proxy then .ok st
      else
        match mlookup st.index cleanPath with
        | some entry =>
          if entry.size = it.info.size ∧ entry.modTime = it.info.modTime then .ok st
          else addFileSlow env st it cleanPath
        | none => addFileSlow env st it cleanPath

/-- The callback `AddFile` hands to `UpdateIndexWithMeta`: load the ignore
patterns, build the proxy view, and walk the target. -/
def addFileCallback (env : Env) (absRepoRoot : String) (items : List WalkItem)
    (index : Index) : Except Err AddFileSt :=
  match env.loadIgnorePatterns with
  | .error e => .error e
  | .ok pats =>
    items.foldlM (addFileVisit env pats (proxyOf index) absRepoRoot) ⟨index, []⟩

/-- `core.AddFile`: repository check, path resolution, existence check, then
one index transaction around the walk of the input path. -/
def AddFile (env : Env) (J : GoJson) (d : Disk) (inputPath : String) :
    Except Err Unit × Disk :=
  if env.repoDirExists = false then (.error .notARepo, d)
  else
    match env.abs inputPath with
    | none => (.error .absFail, d)
    | some absInputPath =>
      match env.abs "." with
      | none => (.error .absFail, d)
      | some absRepoRoot =>
        if env.statExists absInputPath = false then (.error (.pathNotExist inputPath), d)
        else
          UpdateIndexWithMeta J env.mkdirOk env.lockOk d
            (fun idx =>
              (addFileCallback env absRepoRoot (env.walkItems absInputPath) idx).map
                (fun st => st.index))

/-- The in-walk state of `AddAll`'s callback: the index, the `seen` set for
the reconciliation sweep, the instrumented list of hashed paths, and the
warnings printed for per-file failures. -/
structure AddAllSt where
  index : Index
  seen : List String
  hashed : List String
  warnings : List String
deriving DecidableEq

/-- The slow path of `AddAll`'s walk function: a hashing failure is
downgraded to a warning and the walk continues with the index untouched. -/
def addAllSlow (env : Env) (st : AddAllSt) (it : WalkItem) (cleanPath : String) :
    Except Err AddAllSt :=
  match env.hashAndStoreFile it.fullPath with
  | .error _ => .ok { st with warnings := st.warnings ++ [cleanPath] }
  | .ok hash =>
    .ok { st with
          index := minsert st.index cleanPath ⟨hash, it.info.modTime, it.info.size⟩,
          hashed := st.hashed ++ [cleanPath] }

/-- The walk function of `AddAll`: propagate walk errors, skip entries whose
relative path cannot be computed, apply the same filters as `AddFile` (in
`AddAll`'s order: safety before the `.kitcat` prune), mark accepted paths as
seen, then fast path or slow path. -/
def addAllVisit (env : Env) (pats : List String) (proxy : List (String × String))
    (rootDir : String) (st : AddAllSt) (it : WalkItem) : Except Err AddAllSt :=
  if it.err then .error (.walkErr it.fullPath)
  else
    match env.paths.rel rootDir it.fullPath with
    | none => .ok st
    | some relPath =>
      let cleanPath := env.paths.clean relPath
      if cleanPath = "." then .ok st
      else if env.isSafePath cleanPath = false then .ok st
      else if strHasPre (RepoDir ++ pathSep) cleanPath ∨ cleanPath = RepoDir then .ok st
      else if it.info.isDir then .ok st
      else if env.shouldIgnore cleanPath pats proxy then .ok st
      else
        let st1 := { st with seen := st.seen ++ [cleanPath] }
        match mlookup st1.index cleanPath with
        | some entry =>
          if entry.size = it.info.size ∧ entry.modTime = it.info.modTime then .ok st1
          else addAllSlow env st1 it cleanPath
        | none => addAllSlow env st1 it cleanPath

/-- The callback `AddAll` hands to `UpdateIndexWithMeta`: walk the repository
root, then delete (collect-then-delete) every index key not seen. -/
def addAllCallback (env : Env) (index : Index) : Except Err AddAllSt :=
  match env.loadIgnorePatterns with
  | .error e => .error e
  | .ok pats =>
    match env.abs "." with
    | none => .error .absFail
    | some rootDir =>
      match (env.walkItems rootDir).foldlM
          (addAllVisit env pats (proxyOf index) rootDir) ⟨index, [], [], []⟩ with
      | .error e => .error e
      | .ok st =>
        let toDelete := (mkeys st.index).filter (fun p => decide (p ∉ st.seen))
        .ok { st with index := toDelete.foldl merase st.index }

/-- `core.AddAll`: one index transaction around the whole-tree walk and the
reconciliation sweep.  Note: no repository-marker check occurs here. -/
def AddAll (env : Env) (J : GoJson) (d : Disk) : Except Err Unit × Disk :=
  UpdateIndexWithMeta J env.mkdirOk env.lockOk d
    (fun idx => (addAllCallback env idx).map (fun st => st.index))

/-- The guard chain of `addAllVisit`, as a partial function: `some c` when
the visited entry passes relativization, the root/`.kitcat` pruning, the
directory check, and the safety and ignore filters, with `c` its canonical
path; `none` when the entry is skipped. -/
def addAllAccept (env : Env) (pats : List String) (proxy : List (String × String))
    (rootDir : String) (it : WalkItem) : Option String :=
  if it.err then none
  else
    match env.paths.rel rootDir it.fullPath with
    | none => none
    | some relPath =>
      let cleanPath := env.paths.clean relPath
      if cleanPath = "." then none
      else if env.isSafePath cleanPath = false then none
      else if strHasPre (RepoDir ++ pathSep) cleanPath ∨ cleanPath = RepoDir then none
      else if it.info.isDir then none
      else if env.shouldIgnore cleanPath pats proxy then none
      else some cleanPath

/-! ## Association-map lemmas -/

theorem mlookup_minsert {α : Type} (m : List (String × α)) (k p : String) (v : α) :
    mlookup (minsert m k v) p = if k = p then some v else mlookup m p := by
  induction m with
  | nil => simp [minsert, mlookup]
  | cons a rest ih =>
    obtain ⟨k', v'⟩ := a
    by_cases h1 : k' = k
    · subst h1
      simp only [minsert, if_pos rfl, mlookup]
      split_ifs <;> simp_all [mlookup]
    · simp only [minsert, if_neg h1, mlookup, ih]
      split_ifs <;> simp_all

theorem mlookup_merase {α : Type} (m : List (String × α)) (k p : String) :
    mlookup (merase m k) p = if k = p then none else mlookup m p := by
  induction m with
  | nil => simp [merase, mlookup]
  | cons a rest ih =>
    obtain ⟨k', v'⟩ := a
    by_cases h1 : k' = k
    · subst h1
      simp only [merase, if_pos rfl, ih]
      split_ifs <;> simp_all [mlookup]
    · simp only [merase, if_neg h1, mlookup, ih]
      split_ifs <;> simp_all

theorem mlookup_eraseFold {α : Type} (l : List String) (m : List (String × α)) (p : String) :
    mlookup (l.foldl merase m) p = if p ∈ l then none else mlookup m p := by
  induction l generalizing m with
  | nil => simp
  | cons k rest ih =>
    simp only [List.foldl_cons, ih, mlookup_merase, List.mem_cons]
    split_ifs <;> simp_all

theorem mem_mkeys_of_mlookup {α : Type} (m : List (String × α)) (p : String) (v : α)
    (h : mlookup m p = some v) : p ∈ mkeys m := by
  induction m with
  | nil => simp [mlookup] at h
  | cons a rest ih =>
    obtain ⟨k', v'⟩ := a
    simp only [mlookup] at h
    by_cases h1 : k' = p
    · simp [mkeys, h1]
    · simp only [if_neg h1] at h
      simp [mkeys] at ih ⊢
      exact Or.inr (ih h)

theorem mlookup_of_mem_mkeys {α : Type} (m : List (String × α)) (p : String)
    (h : p ∈ mkeys m) : ∃ v, mlookup m p = some v := by
  induction m with
  | nil => simp [mkeys] at h
  | cons a rest ih =>
    obtain ⟨k', v'⟩ := a
    by_cases h1 : k' = p
    · exact ⟨v', by simp [mlookup, h1]⟩
    · simp only [mkeys, List.map_cons, List.mem_cons] at h
      rcases h with h | h
      · exact absurd h.symm h1
      · obtain ⟨v, hv⟩ := ih h
        exact ⟨v, by simp [mlookup, if_neg h1, hv]⟩

theorem ex_bind_ok {β γ : Type} (a : β) (f : β → Except Err γ) :
    ((Except.ok a : Except Err β) >>= f) = f a := rfl

theorem ex_bind_error {β γ : Type} (e : Err) (f : β → Except Err γ) :
    ((Except.error e : Except Err β) >>= f) = .error e := rfl

theorem ex_pure_eq {β : Type} (a : β) : (pure a : Except Err β) = .ok a := rfl

theorem foldlM_cons_ex {α β : Type} (f : β → α → Except Err β) (x : α) (xs : List α) (a : β) :
    (x :: xs).foldlM f a = (f a x) >>= (fun b => xs.foldlM f b) := rfl

theorem foldlM_append_ex {α β : Type} (f : β → α → Except Err β) (xs ys : List α) (a : β) :
    (xs ++ ys).foldlM f a =
      (xs.foldlM f a) >>= (fun b => ys.foldlM f b) := by
  induction xs generalizing a with
  | nil => rfl
  | cons x xs ih =>
    simp only [List.cons_append, foldlM_cons_ex, ih]
    cases hfa : f a x
    · simp [ex_bind_error]
    · simp [ex_bind_ok]

/-! ## Fixtures: concrete instantiations of the external collaborators -/

/-- A trivial path library: relative paths are the full paths themselves. -/
def pl0 : PathLib := { rel := fun _ p => some p, clean := fun p => p }

/-- A benign environment: everything present, nothing ignored, hashing
deterministic from the path. -/
def env0 : Env := {
  repoDirExists := true
  statExists := fun _ => true
  abs := fun _ => some "/repo"
  walkItems := fun _ => []
  paths := pl0
  isSafePath := fun _ => true
  shouldIgnore := fun _ _ _ => false
  loadIgnorePatterns := .ok []
  hashAndStoreFile := fun p => .ok ("h" ++ p)
  mkdirOk := true
  lockOk := true }

/-- A codec for an empty well-formed document. -/
def json0 : GoJson := {
  parseOuter := fun _ => some []
  unString := fun _ => none
  unEntry := fun _ => none }

/-! ## Claims about the transaction and the loader -/

/-- Claim C1: in `UpdateIndexWithMeta`, if the mutation callback returns an
error then no write to the index file is performed — the on-disk index after
the call is byte-identical to its state before the call — and the callback's
error is propagated unchanged to the caller. -/
theorem C1_callback_error_no_write (J : GoJson) (d : Disk)
    (fn : Index → Except Err Index) (i : Index) (e : Err)
    (hload : LoadIndexWithMeta J d = .ok i) (hfn : fn i = .error e) :
    UpdateIndexWithMeta J true true d fn = (.error e, d) := by
  simp [UpdateIndexWithMeta, hload, hfn]

/-- Witness for C1 at a concrete callback and an absent index file. -/
theorem C1_callback_error_no_write_witness :
    UpdateIndexWithMeta json0 true true none (fun _ => .error (.custom "boom"))
      = (.error (.custom "boom"), none) :=
  C1_callback_error_no_write json0 none _ [] (.custom "boom") rfl rfl

/-- Claim C3: the loader dispatches each entry value on its first significant
byte: a quote decodes as a bare hash string and is migrated to an entry with
that hash and zeroed metadata (size 0, modtime 0), so legacy hashes are
preserved; an opening brace decodes directly as the three-field entry. -/
theorem C3_load_dispatch (J : GoJson) (acc : Index) (path rawValue : String)
    (hsh : String) (e : IndexEntry) :
    (∀ rest, (trimAsciiSpace rawValue).data = '"' :: rest →
      J.unString (trimAsciiSpace rawValue) = some hsh →
      loadEntryStep J acc (path, rawValue) = .ok (minsert acc path ⟨hsh, 0, 0⟩)) ∧
    (∀ rest, (trimAsciiSpace rawValue).data = '\x7b' :: rest →
      J.unEntry (trimAsciiSpace rawValue) = some e →
      loadEntryStep J acc (path, rawValue) = .ok (minsert acc path e)) := by
  constructor
  · intro rest hd hu
    simp [loadEntryStep, hd, hu]
  · intro rest hd hu
    simp [loadEntryStep, hd, hu]

/-- A codec whose string decoder always yields `"deadbeef"` and whose entry
decoder always yields a fixed rich entry. -/
def json3 : GoJson := {
  parseOuter := fun _ => some []
  unString := fun _ => some "deadbeef"
  unEntry := fun _ => some ⟨"e", 1, 2⟩ }

/-- Witness for C3 on one quoted legacy value and one brace-led rich value. -/
theorem C3_load_dispatch_witness :
    loadEntryStep json3 [] ("p", "\"x\"") = .ok (minsert [] "p" ⟨"deadbeef", 0, 0⟩) ∧
    loadEntryStep json3 [] ("q", "\x7by") = .ok (minsert [] "q" ⟨"e", 1, 2⟩) :=
  ⟨(C3_load_dispatch json3 [] "p" "\"x\"" "deadbeef" ⟨"e", 1, 2⟩).1 ['x', '"'] rfl rfl,
   (C3_load_dispatch json3 [] "q" "\x7by" "deadbeef" ⟨"e", 1, 2⟩).2 ['y'] rfl rfl⟩

/-- Claim C4: during load, a value whose first significant byte is neither a
quote nor an opening brace is skipped and the rest of the index still loads
(the result equals the load of the document without that entry); a malformed
outer document fails the whole load with the corruption error; and a value
that matches a recognized shape (quote or brace) but fails to decode into it
fails the entire load. -/
theorem C4_load_error_handling (J : GoJson) (content path rawValue : String)
    (xs ys : List (String × String)) (acc : Index) (c : Char) (rest : List Char) :
    (content ≠ "" → J.parseOuter content = some (xs ++ (path, rawValue) :: ys) →
      (trimAsciiSpace rawValue).data = c :: rest → c ≠ '"' → c ≠ '\x7b' →
      LoadIndexWithMeta J (some content) = (xs ++ ys).foldlM (loadEntryStep J) []) ∧
    (content ≠ "" → J.parseOuter content = none →
      LoadIndexWithMeta J (some content) = .error .corruption) ∧
    (content ≠ "" → J.parseOuter content = some (xs ++ (path, rawValue) :: ys) →
      xs.foldlM (loadEntryStep J) [] = .ok acc →
      (trimAsciiSpace rawValue).data = '"' :: rest →
      J.unString (trimAsciiSpace rawValue) = none →
      LoadIndexWithMeta J (some content) = .error (.legacyDecode path)) ∧
    (content ≠ "" → J.parseOuter content = some (xs ++ (path, rawValue) :: ys) →
      xs.foldlM (loadEntryStep J) [] = .ok acc →
      (trimAsciiSpace rawValue).data = '\x7b' :: rest →
      J.unEntry (trimAsciiSpace rawValue) = none →
      LoadIndexWithMeta J (some content) = .error (.entryDecode path)) := by
  refine ⟨?_, ?_, ?_, ?_⟩
  · intro hc hp hd hq hb
    have hskip : loadEntryStep J acc (path, rawValue) = .ok acc := by
      simp [loadEntryStep, hd, hq, hb]
    simp only [LoadIndexWithMeta, if_neg hc, hp, foldlM_append_ex, foldlM_cons_ex]
    cases hxs : xs.foldlM (loadEntryStep J) [] with
    | error e => simp [ex_bind_error]
    | ok b =>
      have hskip' : loadEntryStep J b (path, rawValue) = .ok b := by
        simp [loadEntryStep, hd, hq, hb]
      simp [ex_bind_ok, ex_bind_error, hskip']
  · intro hc hp
    simp [LoadIndexWithMeta, if_neg hc, hp]
  · intro hc hp hxs hd hu
    have hfail : loadEntryStep J acc (path, rawValue) = .error (.legacyDecode path) := by
      simp [loadEntryStep, hd, hu]
    simp [LoadIndexWithMeta, if_neg hc, hp, foldlM_append_ex, foldlM_cons_ex, hxs,
      ex_bind_ok, ex_bind_error, hfail]
  · intro hc hp hxs hd hu
    have hfail : loadEntryStep J acc (path, rawValue) = .error (.entryDecode path) := by
      simp [loadEntryStep, hd, hu]
    simp [LoadIndexWithMeta, if_neg hc, hp, foldlM_append_ex, foldlM_cons_ex, hxs,
      ex_bind_ok, ex_bind_error, hfail]

/-- A codec exhibiting each load outcome on a distinct document. -/
def json4 : GoJson := {
  parseOuter := fun s =>
    if s = "bad" then none
    else if s = "g" then some [("a", "nil")]
    else if s = "q" then some [("b", "\"x\"")]
    else if s = "r" then some [("c", "\x7by")]
    else some []
  unString := fun _ => none
  unEntry := fun _ => none }

/-- Witness for C4: a garbage-shaped entry is skipped while the document
still loads; a malformed document, a quote-shaped value that fails to decode,
and a brace-shaped value that fails to decode all fail the load. -/
theorem C4_load_error_handling_witness :
    LoadIndexWithMeta json4 (some "g")
      = (([] : List (String × String)) ++ []).foldlM (loadEntryStep json4) [] ∧
    LoadIndexWithMeta json4 (some "bad") = .error .corruption ∧
    LoadIndexWithMeta json4 (some "q") = .error (.legacyDecode "b") ∧
    LoadIndexWithMeta json4 (some "r") = .error (.entryDecode "c") :=
  ⟨(C4_load_error_handling json4 "g" "a" "nil" [] [] [] 'n' ['i', 'l']).1
      (by decide) rfl rfl (by decide) (by decide),
   (C4_load_error_handling json4 "bad" "a" "nil" [] [] [] 'n' []).2.1 (by decide) rfl,
   (C4_load_error_handling json4 "q" "b" "\"x\"" [] [] [] 'n' ['x', '"']).2.2.1
      (by decide) rfl rfl rfl rfl,
   (C4_load_error_handling json4 "r" "c" "\x7by" [] [] [] 'n' ['y']).2.2.2
      (by decide) rfl rfl rfl rfl⟩

/-! ## Legacy-adapter reconciliation lemmas -/

theorem mlookup_legacyUpd_other (acc : Index) (q : String × String) (p : String)
    (h : q.1 ≠ p) : mlookup (legacyUpd acc q) p = mlookup acc p := by
  unfold legacyUpd
  cases hl : mlookup acc q.1 with
  | none => simp [mlookup_minsert, h]
  | some ex =>
    by_cases he : ex.hash = q.2 <;> simp [he, mlookup_minsert, h]

theorem updFold_not_mem (l : List (String × String)) (m : Index) (p : String)
    (h : p ∉ l.map Prod.fst) : mlookup (l.foldl legacyUpd m) p = mlookup m p := by
  induction l generalizing m with
  | nil => rfl
  | cons q rest ih =>
    simp only [List.map_cons, List.mem_cons] at h
    push_neg at h
    simp only [List.foldl_cons]
    rw [ih _ h.2, mlookup_legacyUpd_other _ _ _ (fun he => h.1 he.symm)]

theorem updFold_mem (l : List (String × String)) (m : Index) (p : String) (hsh : String)
    (hnd : (l.map Prod.fst).Nodup) (hl : mlookup l p = some hsh) :
    mlookup (l.foldl legacyUpd m) p =
      match mlookup m p with
      | some e => if e.hash = hsh then some e else some ⟨hsh, 0, 0⟩
      | none => some ⟨hsh, 0, 0⟩ := by
  induction l generalizing m with
  | nil => simp [mlookup] at hl
  | cons q rest ih =>
    obtain ⟨k, v⟩ := q
    simp only [List.map_cons, List.nodup_cons] at hnd
    by_cases hk : k = p
    · subst hk
      have hv : v = hsh := by simpa [mlookup] using hl
      subst hv
      simp only [List.foldl_cons]
      rw [updFold_not_mem rest _ k hnd.1]
      unfold legacyUpd
      cases hm : mlookup m k with
      | none => simp [mlookup_minsert]
      | some e =>
        by_cases he : e.hash = v
        · simp [he, hm]
        · simp [he, hm, mlookup_minsert]
    · simp only [mlookup, if_neg hk] at hl
      simp only [List.foldl_cons]
      rw [ih _ hnd.2 hl, mlookup_legacyUpd_other _ _ _ hk]

theorem not_mem_map_of_mlookup_none {α : Type} (l : List (String × α)) (p : String)
    (h : mlookup l p = none) : p ∉ l.map Prod.fst := by
  intro hmem
  obtain ⟨v, hv⟩ := mlookup_of_mem_mkeys l p hmem
  rw [h] at hv
  exact Option.noConfusion hv

/-- Claim C8: in the legacy-adapter transaction, after the hash-map callback
runs, every key present in the rich index before the callback but absent from
the callback's map afterward is deleted, and every key whose hash is new or
changed gets a fresh rich entry with that hash and zeroed ModTime and Size. -/
theorem C8_legacy_reconcile (fn : List (String × String) → Except Err (List (String × String)))
    (idx : Index) (proxy : List (String × String))
    (hfn : fn (proxyOf idx) = .ok proxy) (hnd : (proxy.map Prod.fst).Nodup) :
    ∃ r, legacyReconcile fn idx = .ok r ∧
      (∀ p, mlookup proxy p = none → mlookup r p = none) ∧
      (∀ p hsh, mlookup proxy p = some hsh →
        (mlookup idx p = none ∨ ∀ e, mlookup idx p = some e → e.hash ≠ hsh) →
        mlookup r p = some ⟨hsh, 0, 0⟩) := by
  refine ⟨_, by rw [legacyReconcile, hfn], ?_, ?_⟩
  · intro p hp
    rw [updFold_not_mem _ _ _ (not_mem_map_of_mlookup_none proxy p hp), mlookup_eraseFold]
    cases hm : mlookup idx p with
    | none => split_ifs <;> rfl
    | some v =>
      rw [if_pos]
      exact List.mem_filter.mpr ⟨mem_mkeys_of_mlookup idx p v hm, by simp [hp]⟩
  · intro p hsh hp hno
    have hptd : p ∉ (mkeys idx).filter (fun q => decide (mlookup proxy q = none)) := by
      intro hmem
      have := (List.mem_filter.mp hmem).2
      simp [hp] at this
    rw [updFold_mem proxy _ p hsh hnd hp, mlookup_eraseFold, if_neg hptd]
    cases hm : mlookup idx p with
    | none => rfl
    | some e =>
      rcases hno with hno | hno
      · rw [hno] at hm; exact Option.noConfusion hm
      · simp [hno e hm]

/-- A legacy callback deleting `c`, changing `a`, and adding `b`. -/
def fn8 : List (String × String) → Except Err (List (String × String)) :=
  fun _ => .ok [("a", "h1"), ("b", "h2")]

/-- A starting rich index for the adapter witnesses. -/
def idx8 : Index := [("a", ⟨"h0", 5, 5⟩), ("c", ⟨"h3", 1, 1⟩)]

/-- Witness for C8 on a callback that deletes one key, rewrites one hash and
adds one key. -/
theorem C8_legacy_reconcile_witness :
    ∃ r, legacyReconcile fn8 idx8 = .ok r ∧
      (∀ p, mlookup [("a", "h1"), ("b", "h2")] p = none → mlookup r p = none) ∧
      (∀ p hsh, mlookup [("a", "h1"), ("b", "h2")] p = some hsh →
        (mlookup idx8 p = none ∨ ∀ e, mlookup idx8 p = some e → e.hash ≠ hsh) →
        mlookup r p = some ⟨hsh, 0, 0⟩) :=
  C8_legacy_reconcile fn8 idx8 [("a", "h1"), ("b", "h2")] rfl (by decide)

/-- Claim C10: in the legacy-adapter transaction, an index entry whose key
remains present and whose hash the callback leaves unchanged retains its
stored ModTime and Size exactly (the entry is preserved verbatim). -/
theorem C10_unchanged_hash_keeps_meta
    (fn : List (String × String) → Except Err (List (String × String)))
    (idx : Index) (proxy : List (String × String)) (p : String) (e : IndexEntry)
    (hfn : fn (proxyOf idx) = .ok proxy) (hnd : (proxy.map Prod.fst).Nodup)
    (hidx : mlookup idx p = some e) (hpx : mlookup proxy p = some e.hash) :
    ∃ r, legacyReconcile fn idx = .ok r ∧ mlookup r p = some e := by
  refine ⟨_, by rw [legacyReconcile, hfn], ?_⟩
  have hptd : p ∉ (mkeys idx).filter (fun q => decide (mlookup proxy q = none)) := by
    intro hmem
    have := (List.mem_filter.mp hmem).2
    simp [hpx] at this
  rw [updFold_mem proxy _ p e.hash hnd hpx, mlookup_eraseFold, if_neg hptd, hidx]
  simp

/-- A legacy callback keeping `a`'s hash unchanged. -/
def fn10 : List (String × String) → Except Err (List (String × String)) :=
  fun _ => .ok [("a", "h0")]

/-- Witness for C10: the untouched key `a` keeps its metadata `(5, 5)`. -/
theorem C10_unchanged_hash_keeps_meta_witness :
    ∃ r, legacyReconcile fn10 idx8 = .ok r ∧ mlookup r "a" = some ⟨"h0", 5, 5⟩ :=
  C10_unchanged_hash_keeps_meta fn10 idx8 [("a", "h0")] "a" ⟨"h0", 5, 5⟩ rfl
    (by decide) rfl rfl

/-! ## Walker analysis: `addAllVisit` against its guard chain -/

theorem addAllVisit_accept_none (env : Env) (pats : List String)
    (proxy : List (String × String)) (rootDir : String) (st : AddAllSt) (it : WalkItem)
    (herr : it.err = false) (hacc : addAllAccept env pats proxy rootDir it = none) :
    addAllVisit env pats proxy rootDir st it = .ok st := by
  unfold addAllAccept at hacc
  unfold addAllVisit
  cases hrel : env.paths.rel rootDir it.fullPath with
  | none => simp [herr, hrel]
  | some rp =>
    simp only [herr, hrel, Bool.false_eq_true, if_false] at hacc ⊢
    split_ifs at hacc ⊢ <;> simp_all

theorem addAllVisit_accept_some (env : Env) (pats : List String)
    (proxy : List (String × String)) (rootDir : String) (st : AddAllSt) (it : WalkItem)
    (c : String) (herr : it.err = false)
    (hacc : addAllAccept env pats proxy rootDir it = some c) :
    addAllVisit env pats proxy rootDir st it =
      (match mlookup st.index c with
       | some entry =>
         if entry.size = it.info.size ∧ entry.modTime = it.info.modTime
         then .ok { st with seen := st.seen ++ [c] }
         else addAllSlow env { st with seen := st.seen ++ [c] } it c
       | none => addAllSlow env { st with seen := st.seen ++ [c] } it c) := by
  unfold addAllAccept at hacc
  unfold addAllVisit
  cases hrel : env.paths.rel rootDir it.fullPath with
  | none => simp [herr, hrel] at hacc
  | some rp =>
    simp only [herr, hrel, Bool.false_eq_true, if_false] at hacc ⊢
    split_ifs at hacc ⊢; simp_all

theorem addAllVisit_ok (env : Env) (pats : List String)
    (proxy : List (String × String)) (rootDir : String) (st : AddAllSt) (it : WalkItem)
    (herr : it.err = false) :
    ∃ st', addAllVisit env pats proxy rootDir st it = .ok st' := by
  cases hacc : addAllAccept env pats proxy rootDir it with
  | none => exact ⟨st, addAllVisit_accept_none env pats proxy rootDir st it herr hacc⟩
  | some c =>
    rw [addAllVisit_accept_some env pats proxy rootDir st it c herr hacc]
    cases hl : mlookup st.index c with
    | some entry =>
      by_cases hf : entry.size = it.info.size ∧ entry.modTime = it.info.modTime
      · exact ⟨{ st with seen := st.seen ++ [c] }, by simp [hf]⟩
      · simp only [if_neg hf]
        unfold addAllSlow
        cases hh : env.hashAndStoreFile it.fullPath <;> exact ⟨_, rfl⟩
    | none =>
      unfold addAllSlow
      cases hh : env.hashAndStoreFile it.fullPath <;> exact ⟨_, rfl⟩

/-- The master case analysis of one successful `addAllVisit` step: either the
entry was skipped and the state is untouched, or its canonical path was
accepted, in which case it was appended to `seen`, the index at every other
key is untouched, a successful hash guarantees the stored entry carries the
file's current metadata, and a pre-existing metadata match leaves everything
but `seen` untouched (the fast path). -/
theorem addAllVisit_ok_cases (env : Env) (pats : List String)
    (proxy : List (String × String)) (rootDir : String) (st st' : AddAllSt) (it : WalkItem)
    (h : addAllVisit env pats proxy rootDir st it = .ok st') :
    (addAllAccept env pats proxy rootDir it = none ∧ st' = st) ∨
    (∃ c, addAllAccept env pats proxy rootDir it = some c ∧
      st'.seen = st.seen ++ [c] ∧
      (∀ p, p ≠ c → mlookup st'.index p = mlookup st.index p) ∧
      (∀ hh, env.hashAndStoreFile it.fullPath = .ok hh →
        ∃ e, mlookup st'.index c = some e ∧
          e.size = it.info.size ∧ e.modTime = it.info.modTime) ∧
      (∀ e, mlookup st.index c = some e → e.size = it.info.size →
        e.modTime = it.info.modTime → st' = { st with seen := st.seen ++ [c] })) := by
  have herr : it.err = false := by
    cases hb : it.err
    · rfl
    · simp [addAllVisit, hb] at h
  cases hacc : addAllAccept env pats proxy rootDir it with
  | none =>
    left
    rw [addAllVisit_accept_none env pats proxy rootDir st it herr hacc] at h
    injection h with h
    exact ⟨rfl, h.symm⟩
  | some c =>
    right
    refine ⟨c, rfl, ?_⟩
    rw [addAllVisit_accept_some env pats proxy rootDir st it c herr hacc] at h
    split at h
    next entry hl =>
      by_cases hf : entry.size = it.info.size ∧ entry.modTime = it.info.modTime
      · rw [if_pos hf] at h
        injection h with h
        subst h
        refine ⟨rfl, fun p hp => rfl, ?_, fun e he _ _ => rfl⟩
        intro hh _
        exact ⟨entry, hl, hf.1, hf.2⟩
      · rw [if_neg hf] at h
        unfold addAllSlow at h
        split at h
        next e0 hh =>
          injection h with h
          subst h
          refine ⟨rfl, fun p hp => rfl, ?_, ?_⟩
          · intro hh0 hcon
            rw [hh] at hcon
            exact Except.noConfusion hcon
          · intro e he hsz hmt
            rw [hl] at he
            injection he with he
            subst he
            exact absurd ⟨hsz, hmt⟩ hf
        next hh0 hh =>
          injection h with h
          subst h
          refine ⟨rfl, ?_, ?_, ?_⟩
          · intro p hp
            rw [mlookup_minsert, if_neg (fun hcp : c = p => hp hcp.symm)]
          · intro hh1 hcon
            rw [hh] at hcon
            injection hcon with hcon
            subst hcon
            exact ⟨⟨hh0, it.info.modTime, it.info.size⟩,
              by rw [mlookup_minsert]; exact if_pos rfl, rfl, rfl⟩
          · intro e he hsz hmt
            rw [hl] at he
            injection he with he
            subst he
            exact absurd ⟨hsz, hmt⟩ hf
    next hl =>
      unfold addAllSlow at h
      split at h
      next e0 hh =>
        injection h with h
        subst h
        refine ⟨rfl, fun p hp => rfl, ?_, ?_⟩
        · intro hh0 hcon
          rw [hh] at hcon
          exact Except.noConfusion hcon
        · intro e he
          rw [hl] at he
          exact Option.noConfusion he
      next hh0 hh =>
        injection h with h
        subst h
        refine ⟨rfl, ?_, ?_, ?_⟩
        · intro p hp
          rw [mlookup_minsert, if_neg (fun hcp : c = p => hp hcp.symm)]
        · intro hh1 hcon
          rw [hh] at hcon
          injection hcon with hcon
          subst hcon
          exact ⟨⟨hh0, it.info.modTime, it.info.size⟩,
            by rw [mlookup_minsert]; exact if_pos rfl, rfl, rfl⟩
        · intro e he
          rw [hl] at he
          exact Option.noConfusion he

/-! ## Fold-level walk lemmas -/

theorem foldlM_nil_ex {α β : Type} (f : β → α → Except Err β) (a : β) :
    ([] : List α).foldlM f a = .ok a := rfl

theorem walkFold_seen (env : Env) (pats : List String) (proxy : List (String × String))
    (rootDir : String) :
    ∀ (items : List WalkItem) (st st' : AddAllSt),
      items.foldlM (addAllVisit env pats proxy rootDir) st = .ok st' →
      st'.seen = st.seen ++ items.filterMap (addAllAccept env pats proxy rootDir) := by
  intro items
  induction items with
  | nil =>
    intro st st' h
    rw [foldlM_nil_ex] at h
    injection h with h
    subst h
    simp
  | cons a rest ih =>
    intro st st' h
    rw [foldlM_cons_ex] at h
    cases hv : addAllVisit env pats proxy rootDir st a with
    | error e => rw [hv] at h; simp [ex_bind_error] at h
    | ok st1 =>
      rw [hv, ex_bind_ok] at h
      have hseen := ih st1 st' h
      rcases addAllVisit_ok_cases env pats proxy rootDir st st1 a hv with
        ⟨hacc, h1⟩ | ⟨c, hacc, hs, _, _, _⟩
      · subst h1; simp [List.filterMap_cons, hacc, hseen]
      · simp [List.filterMap_cons, hacc, hseen, hs, List.append_assoc]

theorem walkFold_untouched (env : Env) (pats : List String) (proxy : List (String × String))
    (rootDir : String) :
    ∀ (items : List WalkItem) (st st' : AddAllSt),
      items.foldlM (addAllVisit env pats proxy rootDir) st = .ok st' →
      ∀ p, p ∉ items.filterMap (addAllAccept env pats proxy rootDir) →
        mlookup st'.index p = mlookup st.index p := by
  intro items
  induction items with
  | nil =>
    intro st st' h p hp
    rw [foldlM_nil_ex] at h
    injection h with h
    subst h
    rfl
  | cons a rest ih =>
    intro st st' h p hp
    rw [foldlM_cons_ex] at h
    cases hv : addAllVisit env pats proxy rootDir st a with
    | error e => rw [hv] at h; simp [ex_bind_error] at h
    | ok st1 =>
      rw [hv, ex_bind_ok] at h
      rcases addAllVisit_ok_cases env pats proxy rootDir st st1 a hv with
        ⟨hacc, h1⟩ | ⟨c, hacc, hs, hother, _, _⟩
      · subst h1
        exact ih st1 st' h p (by simpa [List.filterMap_cons, hacc] using hp)
      · simp only [List.filterMap_cons, hacc, List.mem_cons] at hp
        push_neg at hp
        rw [ih st1 st' h p hp.2, hother p hp.1]

theorem walkFold_ok (env : Env) (pats : List String) (proxy : List (String × String))
    (rootDir : String) :
    ∀ (items : List WalkItem) (st : AddAllSt), (∀ it ∈ items, it.err = false) →
      ∃ st', items.foldlM (addAllVisit env pats proxy rootDir) st = .ok st' := by
  intro items
  induction items with
  | nil => intro st _; exact ⟨st, rfl⟩
  | cons a rest ih =>
    intro st h
    obtain ⟨st1, hv⟩ :=
      addAllVisit_ok env pats proxy rootDir st a (h a (List.mem_cons_self a rest))
    obtain ⟨st', hrest⟩ := ih st1 (fun it hit => h it (List.mem_cons_of_mem a hit))
    exact ⟨st', by rw [foldlM_cons_ex, hv, ex_bind_ok]; exact hrest⟩

theorem walkFold_entry (env : Env) (pats : List String) (proxy : List (String × String))
    (rootDir : String) :
    ∀ (items : List WalkItem) (st st' : AddAllSt),
      items.foldlM (addAllVisit env pats proxy rootDir) st = .ok st' →
      (items.filterMap (addAllAccept env pats proxy rootDir)).Nodup →
      (∀ it ∈ items, ∃ hh, env.hashAndStoreFile it.fullPath = .ok hh) →
      ∀ it ∈ items, ∀ c, addAllAccept env pats proxy rootDir it = some c →
        ∃ e, mlookup st'.index c = some e ∧
          e.size = it.info.size ∧ e.modTime = it.info.modTime := by
  intro items
  induction items with
  | nil => intro st st' h hnd hh it hit; simp at hit
  | cons a rest ih =>
    intro st st' h hnd hh it hit c hacc
    rw [foldlM_cons_ex] at h
    cases hv : addAllVisit env pats proxy rootDir st a with
    | error e => rw [hv] at h; simp [ex_bind_error] at h
    | ok st1 =>
      rw [hv, ex_bind_ok] at h
      have hnd' : (rest.filterMap (addAllAccept env pats proxy rootDir)).Nodup := by
        cases hacca : addAllAccept env pats proxy rootDir a <;>
          simp only [List.filterMap_cons, hacca, List.nodup_cons] at hnd
        · exact hnd
        · exact hnd.2
      rcases List.mem_cons.mp hit with rfl | hit'
      · rcases addAllVisit_ok_cases env pats proxy rootDir st st1 it hv with
          ⟨hacc0, h1⟩ | ⟨c0, hacc0, hs, hother, hhash, hfast⟩
        · rw [hacc0] at hacc; exact Option.noConfusion hacc
        · rw [hacc0] at hacc
          injection hacc with hc
          subst hc
          obtain ⟨hh0, hhok⟩ := hh it (List.mem_cons_self it rest)
          obtain ⟨e, he, hsz, hmt⟩ := hhash hh0 hhok
          have hnotin : c0 ∉ rest.filterMap (addAllAccept env pats proxy rootDir) := by
            simp only [List.filterMap_cons, hacc0, List.nodup_cons] at hnd
            exact hnd.1
          have hpres := walkFold_untouched env pats proxy rootDir rest st1 st' h c0 hnotin
          exact ⟨e, hpres ▸ he, hsz, hmt⟩
      · exact ih st1 st' h hnd' (fun it2 hit2 => hh it2 (List.mem_cons_of_mem a hit2))
          it hit' c hacc

theorem walkFold_fast (env : Env) (pats : List String) (proxy : List (String × String))
    (rootDir : String) :
    ∀ (items : List WalkItem) (st : AddAllSt),
      (∀ it ∈ items, it.err = false) →
      (∀ it ∈ items, ∀ c, addAllAccept env pats proxy rootDir it = some c →
        ∃ e, mlookup st.index c = some e ∧
          e.size = it.info.size ∧ e.modTime = it.info.modTime) →
      items.foldlM (addAllVisit env pats proxy rootDir) st
        = .ok { st with
                seen := st.seen ++ items.filterMap (addAllAccept env pats proxy rootDir) } := by
  intro items
  induction items with
  | nil => intro st _ _; rw [foldlM_nil_ex]; simp
  | cons a rest ih =>
    intro st herr hm
    have herra : a.err = false := herr a (List.mem_cons_self a rest)
    cases hacca : addAllAccept env pats proxy rootDir a with
    | none =>
      rw [foldlM_cons_ex, addAllVisit_accept_none env pats proxy rootDir st a herra hacca,
        ex_bind_ok,
        ih st (fun it hit => herr it (List.mem_cons_of_mem a hit))
          (fun it hit c hc => hm it (List.mem_cons_of_mem a hit) c hc)]
      simp [List.filterMap_cons, hacca]
    | some c =>
      obtain ⟨e, hl, hsz, hmt⟩ := hm a (List.mem_cons_self a rest) c hacca
      rw [foldlM_cons_ex, addAllVisit_accept_some env pats proxy rootDir st a c herra hacca]
      simp only [hl, hsz, hmt, and_self, if_true, ex_bind_ok]
      rw [ih { st with seen := st.seen ++ [c] }
        (fun it hit => herr it (List.mem_cons_of_mem a hit))
        (fun it hit c' hc' => hm it (List.mem_cons_of_mem a hit) c' hc')]
      simp [List.filterMap_cons, hacca, List.append_assoc]

/-! ## Claims about the staging walkers -/

/-- Claim C2: for a visited file whose canonical path already has an index
entry whose stored size and modification time exactly equal the file's
current size and modification time, both walkers take the fast path: no
hashing occurs (the instrumented `hashed` list is untouched) and the existing
entry is left unchanged — `AddFile`'s state is returned verbatim and
`AddAll` only marks the path as seen. -/
theorem C2_fast_path_skips_hashing (env : Env) (pats : List String)
    (pF pA : List (String × String)) (root : String) (stF : AddFileSt) (stA : AddAllSt)
    (it : WalkItem) (relPath c : String) (eF eA : IndexEntry)
    (herr : it.err = false)
    (hrel : env.paths.rel root it.fullPath = some relPath)
    (hclean : env.paths.clean relPath = c)
    (hdot : c ≠ ".")
    (hpre : strHasPre (RepoDir ++ pathSep) c = false)
    (hrd : c ≠ RepoDir)
    (hdir : it.info.isDir = false)
    (hsafe : env.isSafePath c = true)
    (higF : env.shouldIgnore c pats pF = false)
    (higA : env.shouldIgnore c pats pA = false)
    (hlF : mlookup stF.index c = some eF)
    (hszF : eF.size = it.info.size) (hmtF : eF.modTime = it.info.modTime)
    (hlA : mlookup stA.index c = some eA)
    (hszA : eA.size = it.info.size) (hmtA : eA.modTime = it.info.modTime) :
    addFileVisit env pats pF root stF it = .ok stF ∧
    addAllVisit env pats pA root stA it = .ok { stA with seen := stA.seen ++ [c] } := by
  subst hclean
  constructor
  · unfold addFileVisit
    simp [herr, hrel, hdot, hpre, hrd, hdir, hsafe, higF, hlF, hszF, hmtF]
  · unfold addAllVisit
    simp [herr, hrel, hdot, hpre, hrd, hdir, hsafe, higA, hlA, hszA, hmtA]

/-- A one-file walk item used by the walker witnesses. -/
def itW : WalkItem := { fullPath := "a.txt", info := { size := 5, modTime := 100, isDir := false }, err := false }

/-- Witness for C2: a file with matching cached metadata is skipped by both
walkers. -/
theorem C2_fast_path_skips_hashing_witness :
    addFileVisit env0 [] [] "/r" ⟨[("a.txt", ⟨"h", 100, 5⟩)], []⟩ itW
      = .ok ⟨[("a.txt", ⟨"h", 100, 5⟩)], []⟩ ∧
    addAllVisit env0 [] [] "/r" ⟨[("a.txt", ⟨"h", 100, 5⟩)], [], [], []⟩ itW
      = .ok ⟨[("a.txt", ⟨"h", 100, 5⟩)], [] ++ ["a.txt"], [], []⟩ :=
  C2_fast_path_skips_hashing env0 [] [] [] "/r"
    ⟨[("a.txt", ⟨"h", 100, 5⟩)], []⟩ ⟨[("a.txt", ⟨"h", 100, 5⟩)], [], [], []⟩
    itW "a.txt" "a.txt" ⟨"h", 100, 5⟩ ⟨"h", 100, 5⟩
    rfl rfl rfl (by decide) rfl (by decide) rfl rfl rfl rfl rfl rfl rfl rfl rfl rfl

/-- Claim C5: during whole-tree staging, every accepted canonical path (one
that passed the relativization, safety and ignore filters) is appended to the
`seen` set no matter how the fast/slow path turns out, and after the walk
every pre-existing index key not in `seen` has been deleted from the index
(the collect-then-delete sweep); in particular a tracked file that no longer
produces an accepted walk entry loses its index entry. -/
theorem C5_reconciliation_sweep (env : Env) (pats : List String)
    (proxy : List (String × String)) (rootDir : String) (stv : AddAllSt) (it : WalkItem)
    (c : String) (idx : Index) (st : AddAllSt) (p : String) (v : IndexEntry) :
    (it.err = false → addAllAccept env pats proxy rootDir it = some c →
      ∃ st', addAllVisit env pats proxy rootDir stv it = .ok st' ∧
        st'.seen = stv.seen ++ [c]) ∧
    (addAllCallback env idx = .ok st → mlookup idx p = some v → p ∉ st.seen →
      mlookup st.index p = none) := by
  constructor
  · intro herr hacc
    obtain ⟨st', hv⟩ := addAllVisit_ok env pats proxy rootDir stv it herr
    refine ⟨st', hv, ?_⟩
    rcases addAllVisit_ok_cases env pats proxy rootDir stv st' it hv with
      ⟨hacc0, _⟩ | ⟨c0, hacc0, hs, _, _, _⟩
    · rw [hacc0] at hacc; exact Option.noConfusion hacc
    · rw [hacc0] at hacc
      injection hacc with hc
      subst hc
      exact hs
  · intro h hlk hnot
    unfold addAllCallback at h
    split at h
    · exact Except.noConfusion h
    next pats0 hpat =>
      split at h
      · exact Except.noConfusion h
      next rootDir0 habs =>
        split at h
        · exact Except.noConfusion h
        next stW hw =>
          injection h with h
          subst h
          have hnot' : p ∉ stW.seen := hnot
          have hseen := walkFold_seen env pats0 (proxyOf idx) rootDir0
            (env.walkItems rootDir0) ⟨idx, [], [], []⟩ stW hw
          rw [hseen, List.nil_append] at hnot'
          have hWlook : mlookup stW.index p = some v := by
            rw [walkFold_untouched env pats0 (proxyOf idx) rootDir0
              (env.walkItems rootDir0) ⟨idx, [], [], []⟩ stW hw p hnot']
            exact hlk
          show mlookup (List.foldl merase stW.index _) p = none
          rw [mlookup_eraseFold, if_pos]
          refine List.mem_filter.mpr ⟨mem_mkeys_of_mlookup _ p v hWlook, ?_⟩
          rw [hseen, List.nil_append]
          exact decide_eq_true hnot'

/-- An environment whose walk yields one file `a.txt` and whose index starts
with a stale entry for `old.txt`. -/
def env5 : Env := { env0 with walkItems := fun _ => [itW] }

/-- Witness for C5: `a.txt` is accepted and marked seen; the pre-existing
key `old.txt`, unseen by the walk, is deleted by the sweep. -/
theorem C5_reconciliation_sweep_witness :
    (∃ st', addAllVisit env5 [] [] "/repo" ⟨[], [], [], []⟩ itW = .ok st' ∧
      st'.seen = [] ++ ["a.txt"]) ∧
    mlookup (AddAllSt.index
      ⟨[("a.txt", ⟨"ha.txt", 100, 5⟩)], ["a.txt"], ["a.txt"], []⟩) "old.txt" = none :=
  ⟨(C5_reconciliation_sweep env5 [] [] "/repo" ⟨[], [], [], []⟩ itW "a.txt"
      [("old.txt", ⟨"h0", 1, 1⟩)] ⟨[("a.txt", ⟨"ha.txt", 100, 5⟩)], ["a.txt"], ["a.txt"], []⟩
      "old.txt" ⟨"h0", 1, 1⟩).1 rfl rfl,
   (C5_reconciliation_sweep env5 [] [] "/repo" ⟨[], [], [], []⟩ itW "a.txt"
      [("old.txt", ⟨"h0", 1, 1⟩)] ⟨[("a.txt", ⟨"ha.txt", 100, 5⟩)], ["a.txt"], ["a.txt"], []⟩
      "old.txt" ⟨"h0", 1, 1⟩).2 rfl rfl (by decide)⟩

/-- Claim C6: error handling differs by invocation mode.  For any accepted
file on the slow path (no prior entry, or a prior entry whose cached
metadata mismatches), `AddFile`'s walk function propagates a path-resolution
failure (`outsideRepo`) and a hash/store failure (`hashFail`) as errors,
aborting the fold and hence the transaction; `AddAll`'s walk function
downgrades the same hash/store failure to a warning, returns success so the
walk continues, and leaves the whole index — in particular the path's prior
entry, if any — unchanged for the pass. -/
theorem C6_error_mode_asymmetry (env : Env) (pats : List String)
    (pF pA : List (String × String)) (root : String) (stF : AddFileSt) (stA : AddAllSt)
    (it it2 : WalkItem) (relPath c : String) (eh : Err)
    (herr : it.err = false)
    (hrel : env.paths.rel root it.fullPath = some relPath)
    (hclean : env.paths.clean relPath = c)
    (hdot : c ≠ ".")
    (hpre : strHasPre (RepoDir ++ pathSep) c = false)
    (hrd : c ≠ RepoDir)
    (hdir : it.info.isDir = false)
    (hsafe : env.isSafePath c = true)
    (higF : env.shouldIgnore c pats pF = false)
    (higA : env.shouldIgnore c pats pA = false)
    (hlF : ∀ e, mlookup stF.index c = some e →
      ¬(e.size = it.info.size ∧ e.modTime = it.info.modTime))
    (hlA : ∀ e, mlookup stA.index c = some e →
      ¬(e.size = it.info.size ∧ e.modTime = it.info.modTime))
    (hhash : env.hashAndStoreFile it.fullPath = .error eh) :
    addFileVisit env pats pF root stF it = .error (.hashFail it.fullPath) ∧
    addAllVisit env pats pA root stA it
      = .ok { stA with seen := stA.seen ++ [c], warnings := stA.warnings ++ [c] } ∧
    (it2.err = false → env.paths.rel root it2.fullPath = none →
      addFileVisit env pats pF root stF it2 = .error (.outsideRepo it2.fullPath)) := by
  subst hclean
  refine ⟨?_, ?_, ?_⟩
  · unfold addFileVisit addFileSlow
    cases hl : mlookup stF.index (env.paths.clean relPath) with
    | none => simp [herr, hrel, hdot, hpre, hrd, hdir, hsafe, higF, hl, hhash]
    | some e =>
      simp [herr, hrel, hdot, hpre, hrd, hdir, hsafe, higF, hl, hhash, hlF e hl]
  · unfold addAllVisit addAllSlow
    cases hl : mlookup stA.index (env.paths.clean relPath) with
    | none => simp [herr, hrel, hdot, hpre, hrd, hdir, hsafe, higA, hl, hhash]
    | some e =>
      simp [herr, hrel, hdot, hpre, hrd, hdir, hsafe, higA, hl, hhash, hlA e hl]
  · intro herr2 hrel2
    unfold addFileVisit
    simp [herr2, hrel2]

/-- An environment whose content store always fails. -/
def env6 : Env := { env0 with hashAndStoreFile := fun _ => .error (.custom "io") }

/-- A walk item whose path cannot be relativized under `pl6`. -/
def it6 : WalkItem := { fullPath := "weird", info := { size := 1, modTime := 1, isDir := false }, err := false }

/-- A path library that fails to relativize `weird`. -/
def env6b : Env := { env6 with
  paths := { rel := fun _ p => if p = "weird" then none else some p, clean := fun p => p } }

/-- Witness for C6 on a path with a stale prior entry (metadata `(99, 4)`
against the file's `(100, 5)`): the failing hash aborts `AddFile`'s walk but
only warns in `AddAll`'s, whose index — stale entry included — is returned
unchanged; an unrelativizable path aborts `AddFile`'s walk. -/
theorem C6_error_mode_asymmetry_witness :
    addFileVisit env6b [] [] "/r" ⟨[("a.txt", ⟨"h0", 99, 4⟩)], []⟩ itW
      = .error (.hashFail "a.txt") ∧
    addAllVisit env6b [] [] "/r" ⟨[("a.txt", ⟨"h0", 99, 4⟩)], [], [], []⟩ itW
      = .ok ⟨[("a.txt", ⟨"h0", 99, 4⟩)], [] ++ ["a.txt"], [], [] ++ ["a.txt"]⟩ ∧
    addFileVisit env6b [] [] "/r" ⟨[("a.txt", ⟨"h0", 99, 4⟩)], []⟩ it6
      = .error (.outsideRepo "weird") := by
  have h := C6_error_mode_asymmetry env6b [] [] [] "/r"
    ⟨[("a.txt", ⟨"h0", 99, 4⟩)], []⟩ ⟨[("a.txt", ⟨"h0", 99, 4⟩)], [], [], []⟩
    itW it6 "a.txt" "a.txt" (.custom "io")
    rfl rfl rfl (by decide) rfl (by decide) rfl rfl rfl rfl
    (fun e he => by injection he with h2; subst h2; decide)
    (fun e he => by injection he with h2; subst h2; decide)
    rfl
  exact ⟨h.1, h.2.1, h.2.2 rfl rfl⟩

/-- A repository-less environment: the root marker is absent, yet nothing in
`AddAll` consults it. -/
def env7 : Env := { env0 with repoDirExists := false }

/-- Counterexample to claim C7 as stated: with the repository marker absent,
whole-tree staging (`AddAll`) does not fail with a not-a-repository error —
it runs the transaction, succeeds, and overwrites the on-disk index (here
writing the empty document over an absent file). -/
theorem C7_counterexample :
    env7.repoDirExists = false ∧
    AddAll env7 json0 none = (.ok (), some "\x7b\x7d") ∧
    (Except.ok () : Except Err Unit) ≠ .error .notARepo := by
  refine ⟨rfl, rfl, ?_⟩
  intro h
  exact Except.noConfusion h

/-- Claim C7 (amended): only single-path staging is gated on the repository
root marker: when the marker directory is absent, `AddFile` fails with the
not-a-repository error before touching the index, while `AddAll` performs no
such check. -/
theorem C7_addFile_requires_repo (env : Env) (J : GoJson) (d : Disk) (inputPath : String)
    (h : env.repoDirExists = false) :
    AddFile env J d inputPath = (.error .notARepo, d) := by
  unfold AddFile
  simp [h]

/-- Witness for C7 (amended) on the repository-less environment. -/
theorem C7_addFile_requires_repo_witness :
    AddFile env7 json0 none "a.txt" = (.error .notARepo, none) :=
  C7_addFile_requires_repo env7 json0 none "a.txt" rfl

/-- The guard chain only consults the ignore predicate with the proxy map,
so an ignore predicate insensitive to the tracked-state argument accepts the
same paths under any proxy. -/
theorem addAllAccept_proxy_irrel (env : Env) (pats : List String)
    (pr pr' : List (String × String)) (rootDir : String) (it : WalkItem)
    (hSI : ∀ c, env.shouldIgnore c pats pr = env.shouldIgnore c pats pr') :
    addAllAccept env pats pr rootDir it = addAllAccept env pats pr' rootDir it := by
  unfold addAllAccept
  simp only [hSI]

/-- Claim C9: staging an unchanged tree twice produces byte-identical index
file contents both times.  Under an ignore predicate that does not depend on
its tracked-state argument, with an error-free walk whose accepted canonical
paths are distinct and whose files all hash successfully, a second
`AddAll` over the same (unchanged) walk leaves every entry untouched via the
fast path (its index equals the first run's and its instrumented `hashed`
list is empty), and the full second transaction — reloading the bytes the
first run wrote — writes back exactly the same bytes. -/
theorem C9_idempotent_restage (env : Env) (J : GoJson) (pats : List String)
    (rootDir : String) (I0 : Index) (st1 : AddAllSt)
    (hIg : env.loadIgnorePatterns = .ok pats)
    (hAbs : env.abs "." = some rootDir)
    (hErr : ∀ it ∈ env.walkItems rootDir, it.err = false)
    (hHash : ∀ it ∈ env.walkItems rootDir, ∃ hh, env.hashAndStoreFile it.fullPath = .ok hh)
    (hSI : ∀ c pr pr', env.shouldIgnore c pats pr = env.shouldIgnore c pats pr')
    (hNodup : ((env.walkItems rootDir).filterMap
        (addAllAccept env pats (proxyOf I0) rootDir)).Nodup)
    (h1 : addAllCallback env I0 = .ok st1)
    (hmk : env.mkdirOk = true) (hlk : env.lockOk = true)
    (hRT : LoadIndexWithMeta J (some (MarshalIndent st1.index)) = .ok st1.index) :
    ∃ st2, addAllCallback env st1.index = .ok st2 ∧
      st2.index = st1.index ∧ st2.hashed = [] ∧
      AddAll env J (some (MarshalIndent st1.index))
        = (.ok (), some (MarshalIndent st1.index)) := by
  unfold addAllCallback at h1
  split at h1
  next e hpat => exact Except.noConfusion h1
  next pats0 hpat =>
    rw [hIg] at hpat
    injection hpat with hpat
    subst hpat
    split at h1
    next habs => exact Except.noConfusion h1
    next rootDir0 habs =>
      rw [hAbs] at habs
      injection habs with habs
      subst habs
      split at h1
      next e hw => exact Except.noConfusion h1
      next stW hw =>
        injection h1 with h1
        subst h1
        set D := ((mkeys stW.index).filter (fun p => decide (p ∉ stW.seen))).foldl
          merase stW.index with hDdef
        have hseenW : stW.seen = (env.walkItems rootDir).filterMap
            (addAllAccept env pats (proxyOf I0) rootDir) := by
          have := walkFold_seen env pats (proxyOf I0) rootDir
            (env.walkItems rootDir) ⟨I0, [], [], []⟩ stW hw
          simpa using this
        have hentryW := walkFold_entry env pats (proxyOf I0) rootDir
          (env.walkItems rootDir) ⟨I0, [], [], []⟩ stW hw hNodup hHash
        have hP1 : ∀ it ∈ env.walkItems rootDir, ∀ c,
            addAllAccept env pats (proxyOf I0) rootDir it = some c →
            ∃ e, mlookup D c = some e ∧
              e.size = it.info.size ∧ e.modTime = it.info.modTime := by
          intro it hit c hacc
          obtain ⟨e, he, hsz, hmt⟩ := hentryW it hit c hacc
          have hcseen : c ∈ stW.seen := by
            rw [hseenW]
            exact List.mem_filterMap.mpr ⟨it, hit, hacc⟩
          have hcnot : c ∉ (mkeys stW.index).filter (fun p => decide (p ∉ stW.seen)) := by
            intro hmem
            have h2 := (List.mem_filter.mp hmem).2
            simp at h2
            exact h2 hcseen
          rw [hDdef, mlookup_eraseFold, if_neg hcnot]
          exact ⟨e, he, hsz, hmt⟩
        have hP2 : ∀ p v, mlookup D p = some v → p ∈ stW.seen := by
          intro p v hpv
          rw [hDdef, mlookup_eraseFold] at hpv
          by_cases hmem : p ∈ (mkeys stW.index).filter (fun q => decide (q ∉ stW.seen))
          · rw [if_pos hmem] at hpv
            exact Option.noConfusion hpv
          · rw [if_neg hmem] at hpv
            have hk : p ∈ mkeys stW.index := mem_mkeys_of_mlookup _ p v hpv
            by_contra hns
            exact hmem (List.mem_filter.mpr ⟨hk, decide_eq_true hns⟩)
        have hfun : addAllAccept env pats (proxyOf D) rootDir
            = addAllAccept env pats (proxyOf I0) rootDir :=
          funext (fun it => addAllAccept_proxy_irrel env pats (proxyOf D) (proxyOf I0)
            rootDir it (fun c => hSI c _ _))
        have hfast := walkFold_fast env pats (proxyOf D) rootDir
          (env.walkItems rootDir) ⟨D, [], [], []⟩ hErr
          (by
            intro it hit c hacc
            rw [hfun] at hacc
            exact hP1 it hit c hacc)
        have htd2 : (mkeys D).filter
            (fun p => decide (p ∉ ([] ++ (env.walkItems rootDir).filterMap
              (addAllAccept env pats (proxyOf D) rootDir)))) = [] := by
          rw [List.filter_eq_nil_iff]
          intro p hp
          obtain ⟨v, hv⟩ := mlookup_of_mem_mkeys D p hp
          have hpseen := hP2 p v hv
          rw [hseenW] at hpseen
          simp [hfun, hpseen]
        have hcb : addAllCallback env D
            = .ok ⟨D, [] ++ (env.walkItems rootDir).filterMap
                (addAllAccept env pats (proxyOf D) rootDir), [], []⟩ := by
          unfold addAllCallback
          simp only [hIg, hAbs, hfast, htd2, List.foldl_nil]
        refine ⟨⟨D, [] ++ (env.walkItems rootDir).filterMap
          (addAllAccept env pats (proxyOf D) rootDir), [], []⟩, hcb, rfl, rfl, ?_⟩
        show AddAll env J (some (MarshalIndent D)) = (.ok (), some (MarshalIndent D))
        have hRT' : LoadIndexWithMeta J (some (MarshalIndent D)) = .ok D := hRT
        unfold AddAll UpdateIndexWithMeta
        simp only [hmk, hlk, hRT', hcb]
        simp [Except.map, SafeWriteFile]

/-- A codec that parses the document the first staging run writes back into
the one rich entry it denotes. -/
def json9 : GoJson := {
  parseOuter := fun _ => some [("a.txt", "\x7b")]
  unString := fun _ => none
  unEntry := fun _ => some ⟨"ha.txt", 100, 5⟩ }

/-- Witness for C9: restaging the unchanged one-file tree leaves the index
identical, hashes nothing, and rewrites the identical bytes. -/
theorem C9_idempotent_restage_witness :
    ∃ st2, addAllCallback env5
        (AddAllSt.index ⟨[("a.txt", ⟨"ha.txt", 100, 5⟩)], ["a.txt"], ["a.txt"], []⟩)
        = .ok st2 ∧
      st2.index = AddAllSt.index
        ⟨[("a.txt", ⟨"ha.txt", 100, 5⟩)], ["a.txt"], ["a.txt"], []⟩ ∧
      st2.hashed = [] ∧
      AddAll env5 json9 (some (MarshalIndent (AddAllSt.index
          ⟨[("a.txt", ⟨"ha.txt", 100, 5⟩)], ["a.txt"], ["a.txt"], []⟩)))
        = (.ok (), some (MarshalIndent (AddAllSt.index
            ⟨[("a.txt", ⟨"ha.txt", 100, 5⟩)], ["a.txt"], ["a.txt"], []⟩))) :=
  C9_idempotent_restage env5 json9 [] "/repo" []
    ⟨[("a.txt", ⟨"ha.txt", 100, 5⟩)], ["a.txt"], ["a.txt"], []⟩
    rfl rfl (by decide) (fun it _ => ⟨"h" ++ it.fullPath, rfl⟩)
    (fun c pr pr' => rfl) (by decide) rfl rfl rfl rfl

end Kitcat
